import Mathlib

/-!
Verification of the kevlox bytecode interpreter sources.

The definitions below are a shallow embedding of the C sources:
`value.h` (tagged value union), `clox/vm.c` (the run loop and `interpret`),
`clox/compiler.c` (jump emission and backpatching), `kevlox/table.c` /
`clox/table.c` (the open-addressing hash table), and `kevlox/memory.c`
(mark-sweep garbage collection).  C doubles are modelled as rationals,
object pointers as natural-number ids, and the byte arrays as lists.
-/

namespace Kevlox

/-! ### Value model (value.h, tagged-union revision)

`Value` mirrors the C struct `{ ValueType type; union { bool; double; Obj* } as; }`.
Pointers to heap objects are modelled as `Nat` ids. -/

inductive Value where
  | valBool (b : Bool)
  | valNil
  | valNumber (n : ℚ)
  | valObj (o : Nat)
deriving DecidableEq

/-- `IS_BOOL(value)`. -/
def Value.isBool : Value → Bool
  | .valBool _ => true
  | _ => false

/-- `IS_NIL(value)`. -/
def Value.isNil : Value → Bool
  | .valNil => true
  | _ => false

/-- `IS_NUMBER(value)`. -/
def Value.isNumber : Value → Bool
  | .valNumber _ => true
  | _ => false

/-- `IS_OBJ(value)`. -/
def Value.isObj : Value → Bool
  | .valObj _ => true
  | _ => false

/-- `AS_BOOL(value)` (meaningful only on booleans). -/
def Value.asBool : Value → Bool
  | .valBool b => b
  | _ => false

/-- `AS_NUMBER(value)` (meaningful only on numbers). -/
def Value.asNumber : Value → ℚ
  | .valNumber n => n
  | _ => 0

/-- `isFalsey` from clox/vm.c:
`return IS_NIL(value) || (IS_BOOL(value) && !AS_BOOL(value));` -/
def isFalsey (value : Value) : Bool :=
  value.isNil || (value.isBool && !value.asBool)

/-! ### Chunk and opcodes (clox/chunk.h) -/

/-- Opcode byte values, in the order of the `OpCode` enum in clox/chunk.h. -/
def OP_CONSTANT : Nat := 0
def OP_NIL : Nat := 1
def OP_TRUE : Nat := 2
def OP_FALSE : Nat := 3
def OP_POP : Nat := 4
def OP_GET_LOCAL : Nat := 5
def OP_SET_LOCAL : Nat := 6
def OP_GET_GLOBAL : Nat := 7
def OP_DEFINE_GLOBAL : Nat := 8
def OP_SET_GLOBAL : Nat := 9
def OP_GET_UPVALUE : Nat := 10
def OP_SET_UPVALUE : Nat := 11
def OP_EQUAL : Nat := 12
def OP_GREATER : Nat := 13
def OP_LESS : Nat := 14
def OP_ADD : Nat := 15
def OP_SUBTRACT : Nat := 16
def OP_MULTIPLY : Nat := 17
def OP_DIVIDE : Nat := 18
def OP_NOT : Nat := 19
def OP_NEGATE : Nat := 20
def OP_PRINT : Nat := 21
def OP_JUMP : Nat := 22
def OP_JUMP_IF_FALSE : Nat := 23
def OP_LOOP : Nat := 24
def OP_CALL : Nat := 25
def OP_CLOSURE : Nat := 26
def OP_CLOSE_UPVALUE : Nat := 27
def OP_RETURN : Nat := 28

/-- `Chunk` from clox/chunk.h: bytecode bytes, parallel line array, constant pool.
`count` is the length of `code`. -/
structure Chunk where
  code : List Nat
  lines : List Nat
  constants : List Value
deriving DecidableEq

/-! ### VM run loop (clox/vm.c revision under src/) -/

inductive InterpretResult where
  | interpretOk
  | interpretCompileError
  | interpretRuntimeError
deriving DecidableEq

/-- Outcome of executing one instruction of the clox/vm.c `run` loop.
`next` continues at the new ip with the new stack; `done` is `OP_RETURN`
(which in this revision prints the popped value); `fail` is `runtimeError`
with its message; `stuck` models undefined behaviour (fetch or stack
underflow) that the C code never checks. `out` is the list of values
printed so far. -/
inductive StepResult where
  | next (ip : Nat) (stack : List Value) (out : List Value)
  | done (out : List Value)
  | fail (msg : String) (out : List Value)
  | stuck
deriving DecidableEq

/-- The `BINARY_OP(valueType, op)` macro in clox/vm.c: if `peek(0)` or
`peek(1)` is not a number, runtime error `"Operands must be numbers."`;
otherwise `b = pop; a = pop; push (a op b)`.  The stack list has its head
at the top, so `peek(0)` is the head (the right operand `b`). -/
def binaryOpStep (op : ℚ → ℚ → ℚ) (ip : Nat) (stack out : List Value) : StepResult :=
  match stack with
  | b :: a :: rest =>
    if !b.isNumber || !a.isNumber then .fail "Operands must be numbers." out
    else .next (ip + 1) (.valNumber (op a.asNumber b.asNumber) :: rest) out
  | _ => .stuck

/-- One iteration of the `run` loop in clox/vm.c: fetch the byte at `ip`
and dispatch exactly the cases of the switch (an opcode the switch does
not handle falls through and the loop continues). -/
def step (chunk : Chunk) (ip : Nat) (stack out : List Value) : StepResult :=
  match chunk.code[ip]? with
  | none => .stuck
  | some inst =>
    if inst = OP_CONSTANT then
      match chunk.code[ip + 1]? with
      | none => .stuck
      | some k =>
        match chunk.constants[k]? with
        | none => .stuck
        | some v => .next (ip + 2) (v :: stack) out
    else if inst = OP_NIL then .next (ip + 1) (.valNil :: stack) out
    else if inst = OP_TRUE then .next (ip + 1) (.valBool true :: stack) out
    else if inst = OP_FALSE then .next (ip + 1) (.valBool false :: stack) out
    else if inst = OP_ADD then binaryOpStep (· + ·) ip stack out
    else if inst = OP_SUBTRACT then binaryOpStep (· - ·) ip stack out
    else if inst = OP_MULTIPLY then binaryOpStep (· * ·) ip stack out
    else if inst = OP_DIVIDE then binaryOpStep (· / ·) ip stack out
    else if inst = OP_NOT then
      match stack with
      | v :: rest => .next (ip + 1) (.valBool (isFalsey v) :: rest) out
      | [] => .stuck
    else if inst = OP_NEGATE then
      match stack with
      | v :: rest =>
        if !v.isNumber then .fail "Operand must be a number." out
        else .next (ip + 1) (.valNumber (-v.asNumber) :: rest) out
      | [] => .stuck
    else if inst = OP_RETURN then
      match stack with
      | v :: _ => .done (out ++ [v])
      | [] => .stuck
    else .next (ip + 1) stack out

/-- The `run` loop of clox/vm.c, with explicit fuel (`none` = still
running, stuck, or out of fuel). -/
def runLoop (chunk : Chunk) : Nat → Nat → List Value → List Value →
    Option (InterpretResult × List Value)
  | 0, _, _, _ => none
  | fuel + 1, ip, stack, out =>
    match step chunk ip stack out with
    | .next ip' stack' out' => runLoop chunk fuel ip' stack' out'
    | .done out' => some (.interpretOk, out')
    | .fail _ out' => some (.interpretRuntimeError, out')
    | .stuck => none

/-- `interpret` from clox/vm.c: compile the source into a chunk; on
failure free the chunk and return `INTERPRET_COMPILE_ERROR` without
running anything; otherwise run the chunk from its first byte.  The
compiler is passed as a function (it lives in compiler.c). -/
def interpret (compileFn : String → Option Chunk) (source : String) (fuel : Nat) :
    Option (InterpretResult × List Value) :=
  match compileFn source with
  | none => some (.interpretCompileError, [])
  | some chunk => runLoop chunk fuel 0 [] []

/-! ### Compiler chunk emission and jump backpatching (clox/compiler.c) -/

/-- The compiler-side view of the chunk being filled plus the error flag
(`parser.hadError`).  Only the fields the jump machinery touches. -/
structure CState where
  code : List Nat
  lines : List Nat
  hadError : Bool
deriving DecidableEq

/-- `writeChunk` (chunk.c): append one byte and its source line. -/
def writeChunk (c : CState) (byte line : Nat) : CState :=
  { c with code := c.code ++ [byte], lines := c.lines ++ [line] }

/-- `emitByte` (clox/compiler.c): write the byte with the previous
token's line. -/
def emitByte (c : CState) (byte line : Nat) : CState :=
  writeChunk c byte line

/-- `emitJump` (clox/compiler.c): write the jump opcode and two `0xFF`
placeholder bytes; return the offset of the first placeholder byte
(`currentChunk()->count - 2`). -/
def emitJump (c : CState) (instr line : Nat) : CState × Nat :=
  let c1 := emitByte (emitByte (emitByte c instr line) 0xff line) 0xff line
  (c1, c1.code.length - 2)

/-- `backpatchJump` (clox/compiler.c): compute
`jump = currentChunk()->count - offset - 2`, report an error when it
exceeds `UINT16_MAX`, and overwrite the two placeholder bytes with the
big-endian 16-bit value. -/
def backpatchJump (c : CState) (offset : Nat) : CState :=
  let jump := c.code.length - offset - 2
  { c with
    hadError := c.hadError || decide (jump > 65535),
    code := (c.code.set offset ((jump >>> 8) &&& 0xff)).set (offset + 1) (jump &&& 0xff) }

/-- A sequence of `emitByte` calls, modelling the code emitted between an
`emitJump` and its `backpatchJump` (each pair is byte, line). -/
def emitBytesList (c : CState) (bs : List (Nat × Nat)) : CState :=
  bs.foldl (fun acc b => emitByte acc b.1 b.2) c

theorem emitBytesList_code (c : CState) (bs : List (Nat × Nat)) :
    (emitBytesList c bs).code = c.code ++ bs.map Prod.fst := by
  induction bs generalizing c with
  | nil => simp [emitBytesList]
  | cons b bs ih =>
    rw [show emitBytesList c (b :: bs) = emitBytesList (emitByte c b.1 b.2) bs from rfl, ih]
    simp [emitByte, writeChunk]

theorem emitBytesList_hadError (c : CState) (bs : List (Nat × Nat)) :
    (emitBytesList c bs).hadError = c.hadError := by
  induction bs generalizing c with
  | nil => rfl
  | cons b bs ih =>
    rw [show emitBytesList c (b :: bs) = emitBytesList (emitByte c b.1 b.2) bs from rfl, ih]
    rfl

/-! ### Open-addressing hash table (kevlox/table.c, identical in clox/table.c) -/

/-- An interned string key (`ObjString*`): the pointer is modelled by the
heap object id, together with its cached FNV-1a hash.  Interning makes
pointer equality content equality, so keys compare by `id`. -/
structure ObjString where
  id : Nat
  hash : Nat
deriving DecidableEq

/-- One table bucket: `{ ObjString* key; Value value; }`.  A tombstone is
`key = none, value = valBool true`; an empty slot is `key = none,
value = valNil`. -/
structure Entry where
  key : Option ObjString
  value : Value
deriving DecidableEq

/-- `Table`: `count` counts live entries plus tombstones, `entries` has
length `capacity`. -/
structure Table where
  count : Nat
  capacity : Nat
  entries : List Entry
deriving DecidableEq

/-- The probe loop of `findEntry`: walk from `index` with stride 1
(mod `capacity`), remembering the first tombstone.  Returns the bucket
index the C function would return a pointer to.  The C loop runs without
bound; `fuel` steps suffice to visit every bucket once, and `none`
models the divergence that C would exhibit on a table with no fully
empty slot and no match. -/
def findEntryLoop (entries : List Entry) (capacity : Nat) (key : ObjString) :
    Nat → Option Nat → Nat → Option Nat
  | _, _, 0 => none
  | index, tombstone, fuel + 1 =>
    match entries[index]? with
    | none => none
    | some e =>
      match e.key with
      | none =>
        if e.value = Value.valNil then
          some (tombstone.getD index)
        else
          findEntryLoop entries capacity key ((index + 1) % capacity)
            (tombstone <|> some index) fuel
      | some k =>
        if k = key then some index
        else findEntryLoop entries capacity key ((index + 1) % capacity) tombstone fuel

/-- `findEntry` (table.c): start probing at `key->hash % capacity`. -/
def findEntry (entries : List Entry) (capacity : Nat) (key : ObjString) : Option Nat :=
  if capacity = 0 then none
  else findEntryLoop entries capacity key (key.hash % capacity) none capacity

/-- One iteration of the rehash loop in `adjustCapacity`, threading the
new entry array and the running `count`.  Note the two faithful details
of the source: the value written is `entries->value` (the value in
slot 0 of the NEW array), and `table->count` is incremented per
reinserted entry without having been reset. -/
def rehashEntry (capacity : Nat) (acc : List Entry × Nat) (entry : Entry) :
    List Entry × Nat :=
  match entry.key with
  | none => acc
  | some k =>
    match findEntry acc.1 capacity k with
    | none => acc
    | some dest =>
      let es1 := acc.1.set dest { (acc.1[dest]?.getD (Entry.mk none Value.valNil)) with key := some k }
      let v0 := (es1[0]?.getD (Entry.mk none Value.valNil)).value
      let es2 := es1.set dest { (es1[dest]?.getD (Entry.mk none Value.valNil)) with value := v0 }
      (es2, acc.2 + 1)

/-- `adjustCapacity` (table.c): allocate a fresh array of empty buckets,
rehash every non-tombstone entry into it, free the old array. -/
def adjustCapacity (table : Table) (capacity : Nat) : Table :=
  let entries := List.replicate capacity (⟨none, Value.valNil⟩ : Entry)
  let res := table.entries.foldl (rehashEntry capacity) (entries, table.count)
  { count := res.2, capacity := capacity, entries := res.1 }

/-- `GROW_CAPACITY` from memory.h.  Modelled from the spec: memory.h is
not under src/; the spec says capacity grows geometrically and is always
a power of two or zero (the canonical macro
`(capacity) < 8 ? 8 : (capacity) * 2`). -/
def growCapacity (capacity : Nat) : Nat :=
  if capacity < 8 then 8 else capacity * 2

/-- `tableSet` (table.c): grow when `count + 1` would exceed 75% load,
probe for the bucket, bump `count` only when filling a fully empty
bucket (not a tombstone), store, and report whether the key was new. -/
def tableSet (table : Table) (key : ObjString) (value : Value) : Table × Bool :=
  let table :=
    if ((table.count : ℚ) + 1) > (table.capacity : ℚ) * (3 / 4) then
      adjustCapacity table (growCapacity table.capacity)
    else table
  match findEntry table.entries table.capacity key with
  | none => (table, false)
  | some i =>
    let e := table.entries[i]?.getD (Entry.mk none Value.valNil)
    let isNewKey := e.key = none
    let table :=
      if isNewKey ∧ e.value = Value.valNil then { table with count := table.count + 1 }
      else table
    ({ table with entries := table.entries.set i ⟨some key, value⟩ }, isNewKey)

/-- `tableDelete` (table.c): place a tombstone (`key = NULL`,
`value = true`); `count` is not changed. -/
def tableDelete (table : Table) (key : ObjString) : Table × Bool :=
  if table.count = 0 then (table, false)
  else
    match findEntry table.entries table.capacity key with
    | none => (table, false)
    | some i =>
      let e := table.entries[i]?.getD (Entry.mk none Value.valNil)
      match e.key with
      | none => (table, false)
      | some _ => ({ table with entries := table.entries.set i ⟨none, .valBool true⟩ }, true)

/-- `tableGet` (table.c), with the out-parameter as an `Option`. -/
def tableGet (table : Table) (key : ObjString) : Option Value :=
  if table.count = 0 then none
  else
    match findEntry table.entries table.capacity key with
    | none => none
    | some i =>
      let e := table.entries[i]?.getD (Entry.mk none Value.valNil)
      match e.key with
      | none => none
      | some _ => some e.value

/-- One iteration of the `tableRemoveWhite` loop: if bucket `i` holds a
key whose object is unmarked, `tableDelete` that key. -/
def removeWhiteStep (marks : List Nat) (t : Table) (i : Nat) : Table :=
  match t.entries[i]? with
  | none => t
  | some e =>
    match e.key with
    | none => t
    | some k => if k.id ∈ marks then t else (tableDelete t k).1

/-- `tableRemoveWhite` (kevlox/table.c): for each bucket whose key is an
unmarked object, `tableDelete` that key.  `marks` is the set of marked
object ids. -/
def tableRemoveWhite (marks : List Nat) (table : Table) : Table :=
  (List.range table.capacity).foldl (removeWhiteStep marks) table

/-! ### Mark-sweep garbage collector (kevlox/memory.c) -/

/-- Heap object payloads, with exactly the out-references that
`blackenObject`'s switch traverses.  `Option Nat` models a possibly-NULL
object pointer. -/
inductive ObjData where
  | objClosure (function : Nat) (upvalues : List (Option Nat))
  | objFunction (name : Option Nat) (constants : List Value)
  | objUpvalue (closed : Value)
  | objNative
  | objString
deriving DecidableEq

/-- The tracing state: the heap (id-keyed object store), the set of
marked ids (`obj->isMarked` bits), and the gray worklist stack
(`vm.grayStack`, top at the head). -/
structure GC where
  heap : List (Nat × ObjData)
  marks : List Nat
  gray : List Nat
deriving DecidableEq

/-- `markObject` (kevlox/memory.c): ignore NULL, ignore already-marked
objects, otherwise set the mark bit and push onto the gray worklist. -/
def markObject (st : GC) (o : Option Nat) : GC :=
  match o with
  | none => st
  | some id =>
    if id ∈ st.marks then st
    else { st with marks := id :: st.marks, gray := id :: st.gray }

/-- `markValue` (kevlox/memory.c): `if (IS_OBJ(value)) markObject(AS_OBJ(value))`. -/
def markValue (st : GC) (v : Value) : GC :=
  match v with
  | .valObj o => markObject st (some o)
  | _ => st

/-- The object reference a `Value` carries, if any. -/
def valueRef : Value → Option Nat
  | .valObj o => some o
  | _ => none

/-- The sequence of `markObject` arguments issued by `blackenObject`'s
switch for one object: a closure marks its function then each upvalue
pointer; a function marks its name then (via `markArray`) each constant;
an upvalue marks its `closed` value; strings and natives mark nothing. -/
def blackenRefs : ObjData → List (Option Nat)
  | .objClosure f ups => some f :: ups
  | .objFunction name consts => name :: consts.map valueRef
  | .objUpvalue closed => [valueRef closed]
  | .objNative => []
  | .objString => []

/-- Find the payload of the object at `id` (dereference the pointer). -/
def lookupObj (heap : List (Nat × ObjData)) (id : Nat) : Option ObjData :=
  (heap.find? (fun p => p.1 = id)).map Prod.snd

/-- `blackenObject` (kevlox/memory.c): mark every out-reference of the
object, in switch order. -/
def blackenObject (st : GC) (id : Nat) : GC :=
  match lookupObj st.heap id with
  | none => st
  | some d => (blackenRefs d).foldl markObject st

/-- All object ids reachable as an out-reference of some heap object. -/
def heapRefIds (heap : List (Nat × ObjData)) : List Nat :=
  heap.flatMap (fun p => (blackenRefs p.2).filterMap (fun o => o))

/-- Termination measure for the tracing loop: unmarked referenceable ids
plus the size of the gray worklist.  Every `markObject` push marks a
fresh id, so the measure never increases and each loop iteration
strictly decreases it. -/
def gcMeasure (st : GC) : Nat :=
  ((heapRefIds st.heap).toFinset \ st.marks.toFinset).card + st.gray.length

theorem markObject_heap (st : GC) (o : Option Nat) : (markObject st o).heap = st.heap := by
  cases o with
  | none => rfl
  | some id =>
    simp only [markObject]
    split <;> rfl

theorem foldl_markObject_heap (refs : List (Option Nat)) (st : GC) :
    (refs.foldl markObject st).heap = st.heap := by
  induction refs generalizing st with
  | nil => rfl
  | cons o refs ih => rw [List.foldl_cons, ih, markObject_heap]

theorem markObject_measure (st : GC) (o : Option Nat)
    (h : ∀ r, o = some r → r ∈ heapRefIds st.heap) :
    gcMeasure (markObject st o) ≤ gcMeasure st := by
  cases o with
  | none => exact Nat.le_refl _
  | some r =>
    simp only [markObject]
    split
    · exact Nat.le_refl _
    · rename_i hnm
      have hr : r ∈ (heapRefIds st.heap).toFinset := List.mem_toFinset.mpr (h r rfl)
      have hrm : r ∉ st.marks.toFinset := fun hc => hnm (List.mem_toFinset.mp hc)
      have hmem : r ∈ (heapRefIds st.heap).toFinset \ st.marks.toFinset :=
        Finset.mem_sdiff.mpr ⟨hr, hrm⟩
      have hset : (heapRefIds st.heap).toFinset \ (r :: st.marks).toFinset =
          ((heapRefIds st.heap).toFinset \ st.marks.toFinset).erase r := by
        ext x
        simp only [Finset.mem_sdiff, List.mem_toFinset, List.mem_cons, Finset.mem_erase]
        tauto
      have hpos : 0 < ((heapRefIds st.heap).toFinset \ st.marks.toFinset).card :=
        Finset.card_pos.mpr ⟨r, hmem⟩
      simp only [gcMeasure, hset, Finset.card_erase_of_mem hmem, List.length_cons]
      omega

theorem foldl_markObject_measure (refs : List (Option Nat)) (st : GC)
    (h : ∀ r, some r ∈ refs → r ∈ heapRefIds st.heap) :
    gcMeasure (refs.foldl markObject st) ≤ gcMeasure st := by
  induction refs generalizing st with
  | nil => exact Nat.le_refl _
  | cons o refs ih =>
    rw [List.foldl_cons]
    have h1 : gcMeasure (markObject st o) ≤ gcMeasure st :=
      markObject_measure st o (fun r hr => h r (hr ▸ List.mem_cons_self o refs))
    have h2 : ∀ r, some r ∈ refs → r ∈ heapRefIds (markObject st o).heap := by
      intro r hr
      rw [markObject_heap]
      exact h r (List.mem_cons_of_mem o hr)
    exact Nat.le_trans (ih (markObject st o) h2) h1

theorem blackenObject_measure (st : GC) (id : Nat) :
    gcMeasure (blackenObject st id) ≤ gcMeasure st := by
  unfold blackenObject
  cases hl : lookupObj st.heap id with
  | none => exact Nat.le_refl _
  | some d =>
    apply foldl_markObject_measure
    intro r hr
    have hmem : (id, d) ∈ st.heap := by
      unfold lookupObj at hl
      cases hf : st.heap.find? (fun p => p.1 = id) with
      | none => rw [hf] at hl; simp at hl
      | some p =>
        rw [hf] at hl
        have h1 := List.find?_some hf
        have h2 := List.mem_of_find?_eq_some hf
        simp at hl h1
        cases p with
        | mk a b =>
          simp at hl h1
          rw [← hl, ← h1]
          exact h2
    unfold heapRefIds
    rw [List.mem_flatMap]
    exact ⟨(id, d), hmem, List.mem_filterMap.mpr ⟨some r, hr, rfl⟩⟩

theorem blackenObject_heap (st : GC) (id : Nat) :
    (blackenObject st id).heap = st.heap := by
  unfold blackenObject
  cases lookupObj st.heap id with
  | none => rfl
  | some d => exact foldl_markObject_heap _ _

/-- The loop body of `traceReferences` run to completion, with fuel.
`traceReferences` below supplies fuel that provably suffices. -/
def traceLoop : Nat → GC → GC
  | 0, st => st
  | fuel + 1, st =>
    match st.gray with
    | [] => st
    | id :: rest => traceLoop fuel (blackenObject { st with gray := rest } id)

/-- `traceReferences` (kevlox/memory.c):
`while (vm.grayCount > 0) { Obj* object = vm.grayStack[--vm.grayCount]; blackenObject(object); }` -/
def traceReferences (st : GC) : GC :=
  traceLoop (gcMeasure st) st

theorem traceLoop_gray (fuel : Nat) (st : GC) (h : gcMeasure st ≤ fuel) :
    (traceLoop fuel st).gray = [] := by
  induction fuel generalizing st with
  | zero =>
    unfold gcMeasure at h
    have : st.gray.length = 0 := by omega
    have hnil : st.gray = [] := List.length_eq_zero.mp this
    simp [traceLoop, hnil]
  | succ fuel ih =>
    unfold traceLoop
    cases hg : st.gray with
    | nil => exact hg
    | cons id rest =>
      apply ih
      have h1 : gcMeasure (blackenObject { st with gray := rest } id) ≤
          gcMeasure { st with gray := rest } := blackenObject_measure _ _
      have h2 : gcMeasure { st with gray := rest } + 1 = gcMeasure st := by
        unfold gcMeasure
        simp only [hg, List.length_cons]
        omega
      omega

/-- The tracing loop drains the whole worklist. -/
theorem traceReferences_gray (st : GC) : (traceReferences st).gray = [] :=
  traceLoop_gray (gcMeasure st) st (Nat.le_refl _)

/-! ### VM-level collection (kevlox/memory.c: markRoots, freeObject, sweep,
collectGarbage, freeObjects) -/

/-- `markTable` (kevlox/table.c): for every bucket, mark the key object
and the value. -/
def markTable (st : GC) (t : Table) : GC :=
  t.entries.foldl (fun s e => markValue (markObject s (e.key.map ObjString.id)) e.value) st

/-- `markCompilerRoots` (kevlox compiler.c, not under src/).  Modelled
from the spec: it walks from `current` up the `enclosing` chain, marking
each compiler's `function`; the chain is given as the list of those
function pointers. -/
def markCompilerRoots (st : GC) (chain : List (Option Nat)) : GC :=
  chain.foldl markObject st

/-- The VM state that the collector sees: roots (value stack, call-frame
closures, open upvalues, globals, compiler chain), the weak intern
table, the all-objects list, the tracing state, and a counter of how
many times `free(vm.grayStack)` has run. -/
structure VMState where
  stack : List Value
  frames : List Nat
  openUpvalues : List Nat
  globals : Table
  strings : Table
  compilerChain : List (Option Nat)
  objects : List Nat
  gc : GC
  grayFreeCount : Nat
deriving DecidableEq

/-- `markRoots` (kevlox/memory.c): mark every stack slot, every frame's
closure, every open upvalue, the globals table, and the compiler roots.
The intern table `strings` is not visited. -/
def markRoots (vm : VMState) : VMState :=
  let g0 := vm.stack.foldl markValue vm.gc
  let g1 := vm.frames.foldl (fun s c => markObject s (some c)) g0
  let g2 := vm.openUpvalues.foldl (fun s u => markObject s (some u)) g1
  let g3 := markTable g2 vm.globals
  { vm with gc := markCompilerRoots g3 vm.compilerChain }

/-- `freeObject` (kevlox/memory.c): release the object's own payload and
header (here: drop it from the heap) — and, as the source really does,
run `free(vm.grayStack)` at the end of every call. -/
def freeObject (vm : VMState) (id : Nat) : VMState :=
  { vm with
    gc := { vm.gc with heap := vm.gc.heap.filter (fun p => p.1 ≠ id) },
    grayFreeCount := vm.grayFreeCount + 1 }

/-- The `sweep` walk (kevlox/memory.c): traverse the objects list; a
marked object has its mark bit cleared and stays linked; an unmarked one
is unlinked and passed to `freeObject`.  Returns the final VM and the
list of survivors. -/
def sweepLoop (vm : VMState) : List Nat → VMState × List Nat
  | [] => (vm, [])
  | id :: rest =>
    if id ∈ vm.gc.marks then
      let vm' := { vm with gc := { vm.gc with marks := vm.gc.marks.erase id } }
      let r := sweepLoop vm' rest
      (r.1, id :: r.2)
    else
      sweepLoop (freeObject vm id) rest

/-- `sweep` (kevlox/memory.c). -/
def sweep (vm : VMState) : VMState :=
  let r := sweepLoop vm vm.objects
  { r.1 with objects := r.2 }

/-- `collectGarbage` (kevlox/memory.c): mark roots, trace, weaken the
intern table (`tableRemoveWhite(&vm.strings)`), then sweep. -/
def collectGarbage (vm : VMState) : VMState :=
  let vm1 := markRoots vm
  let vm2 := { vm1 with gc := traceReferences vm1.gc }
  let vm3 := { vm2 with strings := tableRemoveWhite vm2.gc.marks vm2.strings }
  sweep vm3

/-- `freeObjects` (kevlox/memory.c): at VM shutdown, walk the objects
list and free every node. -/
def freeObjects (vm : VMState) : VMState :=
  vm.objects.foldl freeObject vm

/-! ### Claim theorems -/

/-- C8: `isFalsey v` holds exactly when `v` is `nil` or the boolean
`false`; every other value — including the number `0`, the boolean
`true`, and any heap object such as the empty string — is truthy. -/
theorem claim_C8_isFalsey (v : Value) :
    isFalsey v = true ↔ (v = Value.valNil ∨ v = Value.valBool false) := by
  cases v with
  | valBool b => cases b <;> simp [isFalsey, Value.isNil, Value.isBool, Value.asBool]
  | valNil => simp [isFalsey, Value.isNil]
  | valNumber n => simp [isFalsey, Value.isNil, Value.isBool]
  | valObj o => simp [isFalsey, Value.isNil, Value.isBool]

/-- C3: when compilation fails, `interpret` returns
`INTERPRET_COMPILE_ERROR` without running the VM loop, so no
instruction executes and nothing is printed. -/
theorem claim_C3_compile_error_no_execution (compileFn : String → Option Chunk)
    (source : String) (fuel : Nat) (h : compileFn source = none) :
    interpret compileFn source fuel = some (.interpretCompileError, []) := by
  simp [interpret, h]

/-- Witness for C3 at a concrete failing compiler and source. -/
theorem claim_C3_witness :
    interpret (fun _ => none) "a = ;" 100 = some (.interpretCompileError, []) :=
  claim_C3_compile_error_no_execution (fun _ => none) "a = ;" 100 rfl

/-- C9: the `BINARY_OP` macro pops the right operand `b` (stack top)
first and the left operand `a` second, then pushes `a op b`: with `a`
below `b` on the stack, `OP_SUBTRACT` pushes `a - b` and `OP_DIVIDE`
pushes `a / b`. -/
theorem claim_C9_binary_operand_order (c1 c2 : Chunk) (ip1 ip2 : Nat) (a b : ℚ)
    (rest out : List Value)
    (h1 : c1.code[ip1]? = some OP_SUBTRACT) (h2 : c2.code[ip2]? = some OP_DIVIDE) :
    step c1 ip1 (Value.valNumber b :: Value.valNumber a :: rest) out =
      .next (ip1 + 1) (Value.valNumber (a - b) :: rest) out
    ∧ step c2 ip2 (Value.valNumber b :: Value.valNumber a :: rest) out =
      .next (ip2 + 1) (Value.valNumber (a / b) :: rest) out := by
  constructor
  · simp [step, h1, binaryOpStep, Value.isNumber, Value.asNumber, OP_CONSTANT, OP_NIL,
      OP_TRUE, OP_FALSE, OP_ADD, OP_SUBTRACT]
  · simp [step, h2, binaryOpStep, Value.isNumber, Value.asNumber, OP_CONSTANT, OP_NIL,
      OP_TRUE, OP_FALSE, OP_ADD, OP_SUBTRACT, OP_MULTIPLY, OP_DIVIDE]

/-- Witness for C9: `5 - 2` and `5 / 2` on concrete one-instruction chunks. -/
theorem claim_C9_witness :
    step ⟨[OP_SUBTRACT], [1], []⟩ 0 [Value.valNumber 2, Value.valNumber 5] [] =
      .next 1 [Value.valNumber 3] []
    ∧ step ⟨[OP_DIVIDE], [1], []⟩ 0 [Value.valNumber 2, Value.valNumber 5] [] =
      .next 1 [Value.valNumber (5 / 2)] [] := by
  have h := claim_C9_binary_operand_order ⟨[OP_SUBTRACT], [1], []⟩ ⟨[OP_DIVIDE], [1], []⟩
    0 0 5 2 [] [] rfl rfl
  exact ⟨by rw [h.1]; norm_num, h.2⟩

/-- A one-instruction chunk holding only `OP_ADD`. -/
def addChunk : Chunk := ⟨[OP_ADD], [1], []⟩

/-- C4 counterexample: in the clox/vm.c under src/, `OP_ADD` on two
heap-object operands (e.g. two strings) does not concatenate; it raises
the runtime error `"Operands must be numbers."`, which is also not the
message the claim states. -/
theorem claim_C4_counterexample :
    step addChunk 0 [Value.valObj 2, Value.valObj 1] [] =
      .fail "Operands must be numbers." []
    ∧ "Operands must be numbers." ≠ "Operands must be two numbers or two strings." := by
  exact ⟨rfl, by decide⟩

/-- C4 (amended): `OP_ADD` pushes the numeric sum when both operands are
numbers, and for any other operand pair — strings included — raises the
runtime error `"Operands must be numbers."`. -/
theorem claim_C4_add (chunk : Chunk) (ip : Nat) (b a : Value) (rest out : List Value)
    (h : chunk.code[ip]? = some OP_ADD) :
    step chunk ip (b :: a :: rest) out =
      if b.isNumber && a.isNumber then
        .next (ip + 1) (Value.valNumber (a.asNumber + b.asNumber) :: rest) out
      else .fail "Operands must be numbers." out := by
  cases hb : b.isNumber <;> cases ha : a.isNumber <;>
    simp [step, h, binaryOpStep, hb, ha, OP_CONSTANT, OP_NIL, OP_TRUE, OP_FALSE, OP_ADD]

/-- Witness for C4's amended theorem: `3 + 2` evaluates to `5`, and
`nil + 2` faults. -/
theorem claim_C4_add_witness :
    step addChunk 0 [Value.valNumber 2, Value.valNumber 3] [] =
      .next 1 [Value.valNumber 5] []
    ∧ step addChunk 0 [Value.valNumber 2, Value.valNil] [] =
      .fail "Operands must be numbers." [] := by
  have h1 := claim_C4_add addChunk 0 (Value.valNumber 2) (Value.valNumber 3) [] [] rfl
  have h2 := claim_C4_add addChunk 0 (Value.valNumber 2) Value.valNil [] [] rfl
  constructor
  · rw [h1]; norm_num [Value.isNumber, Value.asNumber]
  · rw [h2]; norm_num [Value.isNumber]

/-! ### C7: the emitJump / backpatchJump offset law -/

/-- Compiler activity between an `emitJump` and its `backpatchJump`:
either emitting further bytes or backpatching some inner jump. -/
inductive EmitOp where
  | byte (b line : Nat)
  | patch (off : Nat)
deriving DecidableEq

def applyEmitOp (c : CState) (op : EmitOp) : CState :=
  match op with
  | .byte b line => emitByte c b line
  | .patch off => backpatchJump c off

def applyEmitOps (c : CState) (ops : List EmitOp) : CState :=
  ops.foldl applyEmitOp c

/-- How many bytes a list of intervening compiler actions emits
(backpatching does not change `count`). -/
def emitCount (ops : List EmitOp) : Nat :=
  ops.countP fun op => match op with | .byte _ _ => true | .patch _ => false

theorem backpatchJump_length (c : CState) (off : Nat) :
    (backpatchJump c off).code.length = c.code.length := by
  simp [backpatchJump]

theorem applyEmitOps_length (ops : List EmitOp) (c : CState) :
    (applyEmitOps c ops).code.length = c.code.length + emitCount ops := by
  induction ops generalizing c with
  | nil => simp [applyEmitOps, emitCount]
  | cons op ops ih =>
    rw [show applyEmitOps c (op :: ops) = applyEmitOps (applyEmitOp c op) ops from rfl, ih]
    cases op with
    | byte b line =>
      simp [applyEmitOp, emitByte, writeChunk, emitCount, List.countP_cons]
      omega
    | patch off =>
      simp [applyEmitOp, backpatchJump_length, emitCount, List.countP_cons]

/-- C7: after `emitJump` returns the placeholder offset `off`
(`count - 2`, i.e. one past the opcode), the two bytes at `off` are the
`0xFF` placeholders; a later `backpatchJump off` — after any sequence of
byte emissions and inner backpatches which appended `d` bytes —
overwrites exactly those two bytes with the big-endian value
`count - off - 2 = d`, the number of code bytes emitted in between, and
reports a compile error exactly when that distance exceeds 65535. -/
theorem claim_C7_jump_patch (c0 : CState) (instr line : Nat) (ops : List EmitOp)
    (c1 : CState) (off : Nat) (c2 c3 : CState) (d : Nat)
    (hp : emitJump c0 instr line = (c1, off))
    (hc2 : c2 = applyEmitOps c1 ops)
    (hc3 : c3 = backpatchJump c2 off)
    (hd : d = emitCount ops) :
    off = c0.code.length + 1
    ∧ c1.code[off]? = some 0xff
    ∧ c1.code[off + 1]? = some 0xff
    ∧ c2.code.length - off - 2 = d
    ∧ c3.code[off]? = some ((d >>> 8) &&& 0xff)
    ∧ c3.code[off + 1]? = some (d &&& 0xff)
    ∧ (d ≤ 65535 → ((d >>> 8) &&& 0xff) * 256 + (d &&& 0xff) = d)
    ∧ (∀ i, i ≠ off → i ≠ off + 1 → c3.code[i]? = c2.code[i]?)
    ∧ c3.hadError = (c2.hadError || decide (d > 65535)) := by
  have hc1 : c1.code = c0.code ++ [instr, 0xff, 0xff] := by
    have : c1 = (emitJump c0 instr line).1 := by rw [hp]
    simp [this, emitJump, emitByte, writeChunk]
  have hoff : off = c0.code.length + 1 := by
    have : off = (emitJump c0 instr line).2 := by rw [hp]
    simp [this, emitJump, emitByte, writeChunk]
  have hlen1 : c1.code.length = c0.code.length + 3 := by simp [hc1]
  have hlen2 : c2.code.length = c0.code.length + 3 + d := by
    rw [hc2, applyEmitOps_length, hlen1, hd]
  have hjump : c2.code.length - off - 2 = d := by omega
  have hofflt : off + 1 < c2.code.length := by omega
  refine ⟨hoff, ?_, ?_, hjump, ?_, ?_, ?_, ?_, ?_⟩
  · rw [hc1, hoff, List.getElem?_append_right (by omega)]
    simp
  · rw [hc1, hoff, List.getElem?_append_right (by omega)]
    have : c0.code.length + 1 + 1 - c0.code.length = 2 := by omega
    simp [this]
  · rw [hc3]
    simp only [backpatchJump, hjump]
    rw [List.getElem?_set_ne (by omega), List.getElem?_set_self (by simpa using by omega)]
  · rw [hc3]
    simp only [backpatchJump, hjump]
    rw [List.getElem?_set_self (by simp; omega)]
  · intro hle
    have h1 : d >>> 8 = d / 256 := by
      have := Nat.shiftRight_eq_div_pow d 8
      norm_num at this
      omega
    have h2 : ∀ x : Nat, x &&& 255 = x % 256 := fun x => Nat.and_pow_two_sub_one_eq_mod x 8
    have h3 : d / 256 &&& 255 = d / 256 % 256 := h2 _
    rw [h1, h3, h2]
    omega
  · intro i hi1 hi2
    rw [hc3]
    simp only [backpatchJump]
    rw [List.getElem?_set_ne (by omega), List.getElem?_set_ne (by omega)]
  · rw [hc3]
    simp [backpatchJump, hjump]

/-- Starting compiler state for the C7 witness. -/
def c7c0 : CState := ⟨[], [], false⟩

/-- Two bytes emitted between the jump and its patch, for the C7 witness. -/
def c7ops : List EmitOp := [.byte OP_POP 1, .byte OP_NIL 1]

/-- Witness for C7 at a concrete jump: distance 2, patched bytes 0 and 2. -/
theorem claim_C7_witness :
    (backpatchJump (applyEmitOps (emitJump c7c0 OP_JUMP_IF_FALSE 1).1 c7ops) 1).code[1]? =
      some ((2 >>> 8) &&& 0xff)
    ∧ (backpatchJump (applyEmitOps (emitJump c7c0 OP_JUMP_IF_FALSE 1).1 c7ops) 1).code[1 + 1]? =
      some (2 &&& 0xff)
    ∧ ((2 >>> 8) &&& 0xff) * 256 + (2 &&& 0xff) = 2 := by
  have h := claim_C7_jump_patch c7c0 OP_JUMP_IF_FALSE 1 c7ops
    (emitJump c7c0 OP_JUMP_IF_FALSE 1).1 1
    (applyEmitOps (emitJump c7c0 OP_JUMP_IF_FALSE 1).1 c7ops)
    (backpatchJump (applyEmitOps (emitJump c7c0 OP_JUMP_IF_FALSE 1).1 c7ops) 1) 2
    (by decide) rfl rfl (by decide)
  exact ⟨h.2.2.2.2.1, h.2.2.2.2.2.1, h.2.2.2.2.2.2.1 (by decide)⟩

/-! ### C1, C2: the adjustCapacity defects -/

/-- The key used in the concrete resize scenarios. -/
def kA : ObjString := ⟨1, 0⟩

/-- A well-formed table of capacity 4 holding `kA ↦ 42`. -/
def tableC1 : Table :=
  { count := 1, capacity := 4,
    entries := [⟨some kA, Value.valNumber 42⟩, ⟨none, Value.valNil⟩,
                ⟨none, Value.valNil⟩, ⟨none, Value.valNil⟩] }

/-- C1: evaluating `adjustCapacity` on a table holding `kA ↦ 42` shows
the rehash loses the value: the reinserted entry's value is copied from
`entries->value` (slot 0 of the new array, still `nil`) instead of
`entry->value`, so the post-grow lookup returns `nil`, not `42`. -/
theorem claim_C1_code_bug :
    tableGet tableC1 kA = some (Value.valNumber 42)
    ∧ tableGet (adjustCapacity tableC1 8) kA = some Value.valNil
    ∧ Value.valNil ≠ Value.valNumber 42 := by
  refine ⟨rfl, rfl, by decide⟩

/-- Number of non-empty buckets (live entries plus tombstones). -/
def occupiedSlots (t : Table) : Nat :=
  t.entries.countP fun e => e.key.isSome || !(decide (e.value = Value.valNil))

/-- C2: `tableDelete` indeed never changes `count`, but `adjustCapacity`
does not reset `count` before re-counting the reinserted entries, so
after growing the one-entry table the code's `count` is 2 while the new
array holds a single occupied slot. -/
theorem claim_C2_code_bug :
    (∀ t k, (tableDelete t k).1.count = t.count)
    ∧ (adjustCapacity tableC1 8).count = 2
    ∧ occupiedSlots (adjustCapacity tableC1 8) = 1
    ∧ tableC1.count = 1 ∧ occupiedSlots tableC1 = 1 := by
  refine ⟨?_, rfl, by decide, rfl, by decide⟩
  intro t k
  simp only [tableDelete]
  split
  · rfl
  · split
    · rfl
    · split <;> rfl

/-! ### C6: freeObject frees the gray stack on every call -/

/-- A VM about to sweep two unreachable string objects. -/
def vmC6 : VMState :=
  { stack := [], frames := [], openUpvalues := [],
    globals := ⟨0, 0, []⟩, strings := ⟨0, 0, []⟩, compilerChain := [],
    objects := [1, 2],
    gc := { heap := [(1, .objString), (2, .objString)], marks := [], gray := [] },
    grayFreeCount := 0 }

/-- C6: `freeObject` runs `free(vm.grayStack)` on every single call, so
sweeping two unreachable objects frees the gray-stack buffer twice
before shutdown — contradicting "freed exactly once, at VM shutdown". -/
theorem claim_C6_code_bug :
    (∀ vm id, (freeObject vm id).grayFreeCount = vm.grayFreeCount + 1)
    ∧ (sweep vmC6).grayFreeCount = 2 := by
  exact ⟨fun vm id => rfl, rfl⟩

/-! ### C10: markObject idempotence, at-most-once pushing, termination -/

/-- C10: `markObject` on NULL or an already-marked object changes
nothing; re-marking is idempotent; under the invariant that gray
entries are marked and pairwise distinct, a `markObject` call keeps the
worklist duplicate-free (each object is pushed at most once); and the
`traceReferences` draining loop terminates with an empty worklist. -/
theorem claim_C10_markObject_idempotent (st : GC) :
    markObject st none = st
    ∧ (∀ id, id ∈ st.marks → markObject st (some id) = st)
    ∧ (∀ o, markObject (markObject st o) o = markObject st o)
    ∧ (st.gray.Nodup → (∀ id ∈ st.gray, id ∈ st.marks) →
        ∀ o, (markObject st o).gray.Nodup ∧
          ∀ id ∈ (markObject st o).gray, id ∈ (markObject st o).marks)
    ∧ (traceReferences st).gray = [] := by
  refine ⟨rfl, ?_, ?_, ?_, traceReferences_gray st⟩
  · intro id h
    simp [markObject, h]
  · intro o
    cases o with
    | none => rfl
    | some id =>
      by_cases h : id ∈ st.marks
      · simp [markObject, h]
      · simp [markObject, h]
  · intro hnd hsub o
    cases o with
    | none => exact ⟨hnd, hsub⟩
    | some id =>
      by_cases h : id ∈ st.marks
      · simpa [markObject, h] using ⟨hnd, hsub⟩
      · have hng : id ∉ st.gray := fun hg => h (hsub id hg)
        constructor
        · simpa [markObject, h, List.nodup_cons] using ⟨hng, hnd⟩
        · intro x hx
          simp only [markObject, if_neg h, List.mem_cons] at hx ⊢
          rcases hx with rfl | hx
          · exact Or.inl rfl
          · exact Or.inr (hsub x hx)

/-- Concrete tracing state for the C10 witness. -/
def gcC10 : GC :=
  { heap := [(1, .objClosure 2 [some 3]), (2, .objFunction none []),
             (3, .objUpvalue Value.valNil)],
    marks := [5], gray := [5] }

/-- Witness for C10 on a concrete state with one marked, queued object. -/
theorem claim_C10_witness :
    markObject gcC10 none = gcC10
    ∧ markObject gcC10 (some 5) = gcC10
    ∧ (markObject gcC10 (some 1)).gray.Nodup
    ∧ (traceReferences gcC10).gray = [] := by
  have h := claim_C10_markObject_idempotent gcC10
  exact ⟨h.1, h.2.1 5 (by decide), (h.2.2.2.1 (by decide) (by decide) (some 1)).1,
    h.2.2.2.2⟩

/-! ### C5: the intern table is weak

The key fact about probing: turning some other key's bucket into a
tombstone never disturbs a successful lookup, because the probe walk
passes a tombstone exactly where it previously passed the mismatching
key, and a match ignores the tombstone accumulator. -/

theorem findEntryLoop_set_tombstone
    (entries : List Entry) (cap : Nat) (k : ObjString) (j : Nat) (kj : ObjString) (vj : Value)
    (hj : entries[j]? = some ⟨some kj, vj⟩) (hne : kj ≠ k) :
    ∀ (fuel idx : Nat) (tomb : Option Nat) (i : Nat),
      (∀ t0, tomb = some t0 → ∃ e, entries[t0]? = some e ∧ e.key = none) →
      findEntryLoop entries cap k idx tomb fuel = some i →
      (∃ e, entries[i]? = some e ∧ e.key = some k) →
      ∀ tomb', findEntryLoop (entries.set j ⟨none, Value.valBool true⟩) cap k idx tomb' fuel
        = some i := by
  intro fuel
  induction fuel with
  | zero =>
    intro idx tomb i _ hres _ _
    simp [findEntryLoop] at hres
  | succ fuel ih =>
    intro idx tomb i htomb hres hik tomb'
    simp only [findEntryLoop] at hres ⊢
    cases hidx : entries[idx]? with
    | none => rw [hidx] at hres; simp at hres
    | some e =>
      rw [hidx] at hres
      obtain ⟨ek, ev⟩ := e
      cases ek with
      | none =>
        by_cases hv : ev = Value.valNil
        · simp only [hv, if_pos rfl] at hres
          exfalso
          obtain ⟨e', hie', hke'⟩ := hik
          cases htc : tomb with
          | none =>
            rw [htc] at hres
            simp only [Option.getD_none] at hres
            obtain rfl : idx = i := by injection hres
            rw [hidx] at hie'
            obtain rfl : (⟨none, ev⟩ : Entry) = e' := by injection hie'
            simp at hke'
          | some t0 =>
            rw [htc] at hres
            simp only [Option.getD_some] at hres
            obtain ⟨e'', ht0, hk''⟩ := htomb t0 htc
            injection hres with hres'
            rw [← hres', ht0] at hie'
            obtain rfl : e'' = e' := by injection hie'
            rw [hk''] at hke'
            simp at hke'
        · simp only [if_neg hv] at hres
          have hij : idx ≠ j := by
            intro h
            rw [h, hj] at hidx
            obtain h' : (⟨some kj, vj⟩ : Entry) = ⟨none, ev⟩ := by injection hidx
            simp at h'
          rw [List.getElem?_set_ne (fun h => hij h.symm), hidx]
          simp only [if_neg hv]
          apply ih ((idx + 1) % cap) (tomb <|> some idx) i ?_ hres hik
          intro t0 ht0
          cases htc : tomb with
          | none =>
            rw [htc] at ht0
            simp only [Option.none_orElse] at ht0
            obtain rfl : idx = t0 := by injection ht0
            exact ⟨⟨none, ev⟩, hidx, rfl⟩
          | some t1 =>
            rw [htc] at ht0
            simp only [Option.some_orElse] at ht0
            injection ht0 with h1
            rw [← h1]
            exact htomb t1 htc
      | some k'' =>
        by_cases hkk : k'' = k
        · simp only [if_pos hkk] at hres
          obtain rfl : idx = i := by injection hres
          have hij : idx ≠ j := by
            intro h
            rw [h, hj] at hidx
            have h' : kj = k'' := by
              have h2 := congrArg Entry.key (Option.some.inj hidx)
              simpa using h2
            exact hne (h'.trans hkk)
          rw [List.getElem?_set_ne (fun h => hij h.symm), hidx]
          simp [hkk]
        · simp only [if_neg hkk] at hres
          by_cases hij : idx = j
          · subst hij
            have hlt : idx < entries.length := by
              by_contra hge
              rw [List.getElem?_eq_none (Nat.le_of_not_lt hge)] at hidx
              simp at hidx
            rw [List.getElem?_set_self hlt]
            simp only
            have : (Value.valBool true) ≠ Value.valNil := by decide
            simp only [if_neg this]
            exact ih ((idx + 1) % cap) tomb i htomb hres hik (tomb' <|> some idx)
          · rw [List.getElem?_set_ne (fun h => hij h.symm), hidx]
            simp only [if_neg hkk]
            exact ih ((idx + 1) % cap) tomb i htomb hres hik tomb'

/-- The table invariant `findEntry` relies on: every stored key is found
at its own bucket. -/
def findsAllKeys (t : Table) : Prop :=
  ∀ (i : Nat) (e : Entry) (k : ObjString), t.entries[i]? = some e → e.key = some k →
    findEntry t.entries t.capacity k = some i

theorem findsAllKeys_tombstone (t : Table) (i : Nat) (k : ObjString) (v : Value)
    (hw : findsAllKeys t) (hi : t.entries[i]? = some ⟨some k, v⟩) :
    findsAllKeys { t with entries := t.entries.set i ⟨none, Value.valBool true⟩ } := by
  intro j e' k' hj hk'
  have hilt : i < t.entries.length := by
    by_contra hge
    rw [List.getElem?_eq_none (Nat.le_of_not_lt hge)] at hi
    simp at hi
  have hj' : (t.entries.set i ⟨none, Value.valBool true⟩)[j]? = some e' := hj
  have hji : j ≠ i := by
    intro h
    subst h
    rw [List.getElem?_set_self hilt] at hj'
    obtain rfl : (⟨none, Value.valBool true⟩ : Entry) = e' := by injection hj'
    simp at hk'
  have hj0 : t.entries[j]? = some e' := by
    rwa [List.getElem?_set_ne (Ne.symm hji)] at hj'
  have hfind := hw j e' k' hj0 hk'
  have hkk : k ≠ k' := by
    intro h
    subst h
    have h2 := hw i ⟨some k, v⟩ k hi rfl
    rw [hfind] at h2
    injection h2 with h3
    exact hji h3
  have hcap : t.capacity ≠ 0 := by
    intro h
    unfold findEntry at hfind
    rw [if_pos h] at hfind
    simp at hfind
  show findEntry (t.entries.set i ⟨none, Value.valBool true⟩) t.capacity k' = some j
  unfold findEntry at hfind ⊢
  rw [if_neg hcap] at hfind ⊢
  exact findEntryLoop_set_tombstone t.entries t.capacity k' i k v hi hkk t.capacity
    (k'.hash % t.capacity) none j (fun t0 h => by simp at h) hfind ⟨e', hj0, hk'⟩ none

theorem removeWhiteStep_spec (marks : List Nat) (t : Table) (i : Nat)
    (hcnt : t.count ≠ 0) (hfind : findsAllKeys t) :
    (removeWhiteStep marks t i).capacity = t.capacity
    ∧ (removeWhiteStep marks t i).count = t.count
    ∧ (removeWhiteStep marks t i).entries.length = t.entries.length
    ∧ findsAllKeys (removeWhiteStep marks t i)
    ∧ (∀ j : Nat, (removeWhiteStep marks t i).entries[j]? = t.entries[j]?
        ∨ (removeWhiteStep marks t i).entries[j]? = some ⟨none, Value.valBool true⟩)
    ∧ (∀ (e : Entry) (k : ObjString), (removeWhiteStep marks t i).entries[i]? = some e →
        e.key = some k → k.id ∈ marks) := by
  cases hei : t.entries[i]? with
  | none =>
    have hstepeq : removeWhiteStep marks t i = t := by simp only [removeWhiteStep, hei]
    rw [hstepeq]
    refine ⟨rfl, rfl, rfl, hfind, fun j => Or.inl rfl, ?_⟩
    intro e k h1 _
    rw [hei] at h1
    simp at h1
  | some e =>
    obtain ⟨ek, ev⟩ := e
    cases ek with
    | none =>
      have hstepeq : removeWhiteStep marks t i = t := by simp only [removeWhiteStep, hei]
      rw [hstepeq]
      refine ⟨rfl, rfl, rfl, hfind, fun j => Or.inl rfl, ?_⟩
      intro e' k h1 h2
      rw [hei] at h1
      obtain rfl : (⟨none, ev⟩ : Entry) = e' := by injection h1
      simp at h2
    | some k0 =>
      by_cases hm : k0.id ∈ marks
      · have hstepeq : removeWhiteStep marks t i = t := by
          simp only [removeWhiteStep, hei, if_pos hm]
        rw [hstepeq]
        refine ⟨rfl, rfl, rfl, hfind, fun j => Or.inl rfl, ?_⟩
        intro e' k h1 h2
        rw [hei] at h1
        obtain rfl : (⟨some k0, ev⟩ : Entry) = e' := by injection h1
        obtain rfl : k0 = k := by injection h2
        exact hm
      · have hilt : i < t.entries.length := by
          by_contra hge
          rw [List.getElem?_eq_none (Nat.le_of_not_lt hge)] at hei
          simp at hei
        have hfe : findEntry t.entries t.capacity k0 = some i :=
          hfind i ⟨some k0, ev⟩ k0 hei rfl
        have hstep : removeWhiteStep marks t i =
            { t with entries := t.entries.set i ⟨none, Value.valBool true⟩ } := by
          simp only [removeWhiteStep, hei, if_neg hm, tableDelete, if_neg hcnt, hfe]
          simp [hei]
        rw [hstep]
        refine ⟨rfl, rfl, by simp, findsAllKeys_tombstone t i k0 ev hfind hei, ?_, ?_⟩
        · intro j
          by_cases hji : j = i
          · subst hji
            exact Or.inr (by simp [List.getElem?_set_self hilt])
          · exact Or.inl (List.getElem?_set_ne (fun h => hji h.symm))
        · intro e' k h1 h2
          have : (t.entries.set i ⟨none, Value.valBool true⟩)[i]? =
              some ⟨none, Value.valBool true⟩ := List.getElem?_set_self hilt
          rw [this] at h1
          obtain rfl : (⟨none, Value.valBool true⟩ : Entry) = e' := by injection h1
          simp at h2

theorem removeWhite_fold (marks : List Nat) (js : List Nat) (t : Table)
    (hcnt : t.count ≠ 0) (hfind : findsAllKeys t) :
    (js.foldl (removeWhiteStep marks) t).capacity = t.capacity
    ∧ (js.foldl (removeWhiteStep marks) t).count = t.count
    ∧ (js.foldl (removeWhiteStep marks) t).entries.length = t.entries.length
    ∧ findsAllKeys (js.foldl (removeWhiteStep marks) t)
    ∧ (∀ j : Nat, (js.foldl (removeWhiteStep marks) t).entries[j]? = t.entries[j]?
        ∨ (js.foldl (removeWhiteStep marks) t).entries[j]? = some ⟨none, Value.valBool true⟩)
    ∧ (∀ j ∈ js, ∀ (e : Entry) (k : ObjString),
        (js.foldl (removeWhiteStep marks) t).entries[j]? = some e →
        e.key = some k → k.id ∈ marks) := by
  induction js generalizing t with
  | nil =>
    exact ⟨rfl, rfl, rfl, hfind, fun j => Or.inl rfl,
      fun j hj => absurd hj (List.not_mem_nil j)⟩
  | cons j0 js ih =>
    obtain ⟨scap, scnt, slen, sfind, sptw, sslot⟩ := removeWhiteStep_spec marks t j0 hcnt hfind
    have hcnt1 : (removeWhiteStep marks t j0).count ≠ 0 := by rw [scnt]; exact hcnt
    obtain ⟨icap, icnt, ilen, ifind, iptw, islot⟩ := ih (removeWhiteStep marks t j0) hcnt1 sfind
    rw [List.foldl_cons]
    refine ⟨icap.trans scap, icnt.trans scnt, ilen.trans slen, ifind, ?_, ?_⟩
    · intro j
      rcases iptw j with h | h
      · rcases sptw j with h2 | h2
        · exact Or.inl (h.trans h2)
        · exact Or.inr (h.trans h2)
      · exact Or.inr h
    · intro j hj e k hje hk
      rcases List.mem_cons.mp hj with rfl | hj'
      · rcases iptw j with h | h
        · rw [h] at hje
          exact sslot e k hje hk
        · rw [h] at hje
          obtain rfl : (⟨none, Value.valBool true⟩ : Entry) = e := by injection hje
          simp at hk
      · exact islot j hj' e k hje hk

/-- Decidable form of `findsAllKeys`, for concrete witnesses. -/
def findsKeysB (t : Table) : Bool :=
  (List.range t.entries.length).all fun i =>
    match t.entries[i]? with
    | none => true
    | some e =>
      match e.key with
      | none => true
      | some k => decide (findEntry t.entries t.capacity k = some i)

theorem findsKeysB_spec (t : Table) (h : findsKeysB t = true) : findsAllKeys t := by
  intro i e k hi hk
  have hlt : i < t.entries.length := by
    by_contra hge
    rw [List.getElem?_eq_none (Nat.le_of_not_lt hge)] at hi
    simp at hi
  have h2 := List.all_eq_true.mp h i (List.mem_range.mpr hlt)
  simp only [hi, hk] at h2
  exact of_decide_eq_true h2

theorem sweepLoop_strings (objs : List Nat) (vm : VMState) :
    (sweepLoop vm objs).1.strings = vm.strings := by
  induction objs generalizing vm with
  | nil => rfl
  | cons id rest ih =>
    by_cases hm : id ∈ vm.gc.marks
    · simp only [sweepLoop, if_pos hm]
      exact ih _
    · simp only [sweepLoop, if_neg hm]
      exact ih _

theorem sweepLoop_survivors (objs : List Nat) (vm : VMState) (h : objs.Nodup) :
    (sweepLoop vm objs).2 = objs.filter (fun x => decide (x ∈ vm.gc.marks)) := by
  induction objs generalizing vm with
  | nil => rfl
  | cons id rest ih =>
    obtain ⟨hhead, htail⟩ := List.nodup_cons.mp h
    by_cases hm : id ∈ vm.gc.marks
    · simp only [sweepLoop, if_pos hm, List.filter_cons, decide_eq_true hm, if_pos]
      rw [ih _ htail]
      congr 1
      apply List.filter_congr
      intro x hx
      have hxid : x ≠ id := fun hcontra => hhead (hcontra ▸ hx)
      simp [List.mem_erase_of_ne hxid]
    · simp only [sweepLoop, if_neg hm, List.filter_cons]
      rw [if_neg (by simpa using hm)]
      exact ih _ htail

theorem collectGarbage_strings (vm : VMState) :
    (collectGarbage vm).strings =
      tableRemoveWhite (traceReferences (markRoots vm).gc).marks vm.strings := by
  unfold collectGarbage sweep
  exact sweepLoop_strings _ _

theorem collectGarbage_objects (vm : VMState) (h : vm.objects.Nodup) :
    (collectGarbage vm).objects =
      vm.objects.filter (fun x => decide (x ∈ (traceReferences (markRoots vm).gc).marks)) := by
  unfold collectGarbage sweep
  exact sweepLoop_survivors _ _ h

/-- C5: the intern table is weak.  `markRoots` never reads `vm.strings`
(replacing the intern table changes nothing about the marks it
produces); after tracing, `tableRemoveWhite` leaves only entries whose
key object is marked; and since sweep frees exactly the unmarked
objects, every key the intern table still references survives the
sweep. -/
theorem claim_C5_weak_intern_table (vm : VMState)
    (hlen : vm.strings.entries.length = vm.strings.capacity)
    (hcnt : vm.strings.count ≠ 0)
    (hfk : findsKeysB vm.strings = true)
    (hnodup : vm.objects.Nodup) :
    (∀ s, (markRoots { vm with strings := s }).gc = (markRoots vm).gc)
    ∧ (∀ (i : Nat) (e : Entry) (k : ObjString),
        (collectGarbage vm).strings.entries[i]? = some e → e.key = some k →
        k.id ∈ (traceReferences (markRoots vm).gc).marks)
    ∧ (∀ (i : Nat) (e : Entry) (k : ObjString),
        (collectGarbage vm).strings.entries[i]? = some e → e.key = some k →
        k.id ∈ vm.objects → k.id ∈ (collectGarbage vm).objects) := by
  have hfind := findsKeysB_spec vm.strings hfk
  have hstr : (collectGarbage vm).strings =
      tableRemoveWhite (traceReferences (markRoots vm).gc).marks vm.strings :=
    collectGarbage_strings vm
  have hmain : ∀ (i : Nat) (e : Entry) (k : ObjString),
      (collectGarbage vm).strings.entries[i]? = some e →
      e.key = some k → k.id ∈ (traceReferences (markRoots vm).gc).marks := by
    intro i e k hie hk
    rw [hstr] at hie
    unfold tableRemoveWhite at hie
    obtain ⟨fcap, fcnt, flen, ffind, fptw, fslot⟩ :=
      removeWhite_fold (traceReferences (markRoots vm).gc).marks
        (List.range vm.strings.capacity) vm.strings hcnt hfind
    by_cases hi : i < vm.strings.capacity
    · exact fslot i (List.mem_range.mpr hi) e k hie hk
    · exfalso
      have hlen2 : ((List.range vm.strings.capacity).foldl
          (removeWhiteStep (traceReferences (markRoots vm).gc).marks)
          vm.strings).entries.length = vm.strings.capacity := flen.trans hlen
      rw [List.getElem?_eq_none (by omega)] at hie
      simp at hie
  refine ⟨fun s => rfl, hmain, ?_⟩
  intro i e k hie hk hobj
  have hm := hmain i e k hie hk
  rw [collectGarbage_objects vm hnodup, List.mem_filter]
  exact ⟨hobj, decide_eq_true hm⟩

/-- A concrete VM for the C5 witness: the string object 1 is rooted on
the stack and interned; the string object 2 is only interned. -/
def vmC5 : VMState :=
  { stack := [Value.valObj 1],
    frames := [], openUpvalues := [],
    globals := ⟨0, 0, []⟩,
    strings := { count := 2, capacity := 2,
                 entries := [⟨some ⟨1, 0⟩, Value.valNil⟩, ⟨some ⟨2, 1⟩, Value.valNil⟩] },
    compilerChain := [],
    objects := [1, 2],
    gc := { heap := [(1, .objString), (2, .objString)], marks := [], gray := [] },
    grayFreeCount := 0 }

/-- Witness for C5: after a collection on `vmC5`, the rooted string
stays interned and alive while the collector never read the intern
table as a root. -/
theorem claim_C5_witness :
    (markRoots { vmC5 with strings := ⟨0, 0, []⟩ }).gc = (markRoots vmC5).gc
    ∧ (1 : Nat) ∈ (traceReferences (markRoots vmC5).gc).marks
    ∧ (1 : Nat) ∈ (collectGarbage vmC5).objects := by
  have h := claim_C5_weak_intern_table vmC5 (by decide) (by decide) (by decide) (by decide)
  refine ⟨h.1 _, ?_, ?_⟩
  · exact h.2.1 0 ⟨some ⟨1, 0⟩, Value.valNil⟩ ⟨1, 0⟩ (by decide) rfl
  · exact h.2.2 0 ⟨some ⟨1, 0⟩, Value.valNil⟩ ⟨1, 0⟩ (by decide) rfl (by decide)

end Kevlox
